import Mathlib

/-!
Verification development for the gitSystem repository: a shallow embedding of
its object store, staging index, tree builder/parser, commit builder and
checkout engine, together with theorems settling the frozen claims about it.

Conventions of the embedding:
* Rust byte buffers (Vec of u8) are modelled as List Nat, each element < 256
  by construction at every producer.
* Rust String / PathBuf values that flow into byte-level serialization are
  modelled as List Nat holding their UTF-8 bytes; short ASCII identifiers
  (object hashes, ref names, HEAD contents) are modelled as Lean String.
* A Rust panic (index out of bounds, unwrap on None/Err, expect) is modelled
  as the value none of an Option result (or an explicit panicked error code);
  the filesystem is modelled as explicit association lists threaded through
  the functions that touch it.
-/

/-- UTF-8 code units of an ASCII Lean string, as naturals (for ASCII text the
character code equals the single UTF-8 byte). -/
def strBytes (s : String) : List Nat :=
  s.data.map Char.toNat

/-- Digit-production loop for positional rendering in the given base, with
structural fuel so that it evaluates inside the kernel; the fuel argument is
always instantiated with a bound on the digit count. -/
def digitsLoop (base : Nat) : Nat → Nat → List Nat
  | 0, n => [48 + n % base]
  | fuel + 1, n => if n < base then [48 + n] else digitsLoop base fuel (n / base) ++ [48 + n % base]

/-- ASCII decimal digits of a natural number, most significant first.
Mirrors the output of the Rust display formatting of a usize. -/
def natToDecimal (n : Nat) : List Nat :=
  digitsLoop 10 n n

/-- ASCII octal digits of a natural number, most significant first.
Mirrors the Rust octal formatting used for tree-entry modes. -/
def natToBase8 (n : Nat) : List Nat :=
  digitsLoop 8 n n

/-- Big-endian byte encoding of a natural number on w bytes, mirroring the
Rust to_be_bytes on a w-byte unsigned integer (high bits beyond w bytes are
discarded, as the Rust integer type does by construction). -/
def toBE : Nat → Nat → List Nat
  | 0, _ => []
  | w + 1, n => toBE w (n / 256) ++ [n % 256]

/-- Big-endian byte decoding, mirroring the Rust from_be_bytes. -/
def fromBE (l : List Nat) : Nat :=
  l.foldl (fun a b => a * 256 + b) 0

/-- Lowercase hexadecimal digit character for a value below 16 (the hex crate
encodes with lowercase digits). -/
def hexDigitChar (v : Nat) : Char :=
  if v < 10 then Char.ofNat (48 + v) else Char.ofNat (87 + v)

/-- Lowercase hexadecimal rendering of a byte list, mirroring hex encode. -/
def hexEncode (bs : List Nat) : String :=
  ⟨(bs.map (fun b => [hexDigitChar (b / 16), hexDigitChar (b % 16)])).flatten⟩

/-- Value of one hexadecimal digit character; accepts both cases, as the hex
crate decoder does. -/
def hexVal (c : Char) : Option Nat :=
  if 48 ≤ c.toNat ∧ c.toNat ≤ 57 then some (c.toNat - 48)
  else if 97 ≤ c.toNat ∧ c.toNat ≤ 102 then some (c.toNat - 87)
  else if 65 ≤ c.toNat ∧ c.toNat ≤ 70 then some (c.toNat - 55)
  else none

/-- Hexadecimal decoding of a character list into bytes, two digits per byte;
fails on odd length or a non-hex character, mirroring hex decode. -/
def hexDecodeChars : List Char → Option (List Nat)
  | [] => some []
  | [_] => none
  | c1 :: c2 :: rest => do
    let hi ← hexVal c1
    let lo ← hexVal c2
    let r ← hexDecodeChars rest
    pure ((16 * hi + lo) :: r)

/-- Hexadecimal decoding of a string, mirroring hex decode in the source. -/
def hexDecode (s : String) : Option (List Nat) :=
  hexDecodeChars s.data

/-- Whether a byte is a UTF-8 continuation byte (0x80 to 0xBF). -/
def utf8Cont (b : Nat) : Bool :=
  128 ≤ b && b ≤ 191

/-- Fuel-driven loop of the UTF-8 validator (structural recursion on the fuel
so that it evaluates inside the kernel). -/
def validUtf8Loop : Nat → List Nat → Bool
  | 0, l => l.isEmpty
  | _ + 1, [] => true
  | fuel + 1, b :: rest =>
    if b ≤ 127 then validUtf8Loop fuel rest
    else if 194 ≤ b && b ≤ 223 then
      match rest with
      | c :: r => utf8Cont c && validUtf8Loop fuel r
      | [] => false
    else if b = 224 then
      match rest with
      | c :: d :: r => (160 ≤ c && c ≤ 191) && utf8Cont d && validUtf8Loop fuel r
      | _ => false
    else if (225 ≤ b && b ≤ 236) || b = 238 || b = 239 then
      match rest with
      | c :: d :: r => utf8Cont c && utf8Cont d && validUtf8Loop fuel r
      | _ => false
    else if b = 237 then
      match rest with
      | c :: d :: r => (128 ≤ c && c ≤ 159) && utf8Cont d && validUtf8Loop fuel r
      | _ => false
    else if b = 240 then
      match rest with
      | c :: d :: e :: r => (144 ≤ c && c ≤ 191) && utf8Cont d && utf8Cont e && validUtf8Loop fuel r
      | _ => false
    else if 241 ≤ b && b ≤ 243 then
      match rest with
      | c :: d :: e :: r => utf8Cont c && utf8Cont d && utf8Cont e && validUtf8Loop fuel r
      | _ => false
    else if b = 244 then
      match rest with
      | c :: d :: e :: r => (128 ≤ c && c ≤ 143) && utf8Cont d && utf8Cont e && validUtf8Loop fuel r
      | _ => false
    else false

/-- UTF-8 validity of a byte list, following the standard table (including
the overlong-encoding and surrogate restrictions that the Rust
String-from-utf8 conversion enforces). -/
def validUtf8 (l : List Nat) : Bool :=
  validUtf8Loop l.length l

/-- Left rotation of a 32-bit word held in a natural number. -/
def rotl32 (s x : Nat) : Nat :=
  ((x <<< s) ||| (x >>> (32 - s))) % 4294967296

/-- SHA-1 padding: the message, a 0x80 byte, zero bytes up to 56 mod 64, and
the bit length on 8 big-endian bytes. -/
def sha1Pad (msg : List Nat) : List Nat :=
  msg ++ 128 :: List.replicate ((119 - msg.length % 64) % 64) 0 ++ toBE 8 (msg.length * 8)

/-- Fuel-driven loop splitting a byte list into successive 64-byte chunks. -/
def chunks64Loop : Nat → List Nat → List (List Nat)
  | 0, _ => []
  | _ + 1, [] => []
  | fuel + 1, b :: r => ((b :: r).take 64) :: chunks64Loop fuel ((b :: r).drop 64)

/-- Split a byte list into successive 64-byte chunks. -/
def chunks64 (l : List Nat) : List (List Nat) :=
  chunks64Loop l.length l

/-- Group bytes into big-endian 32-bit words. -/
def words32 : List Nat → List Nat
  | b0 :: b1 :: b2 :: b3 :: r => (((b0 * 256 + b1) * 256 + b2) * 256 + b3) :: words32 r
  | _ => []

/-- SHA-1 message-schedule extension, operating on the reversed word list
(most recent word first); performs the given number of extension steps. -/
def sha1ExtendRev : Nat → List Nat → List Nat
  | 0, acc => acc
  | k + 1, acc =>
    sha1ExtendRev k
      (rotl32 1 ((acc.getD 2 0) ^^^ (acc.getD 7 0) ^^^ (acc.getD 13 0) ^^^ (acc.getD 15 0)) :: acc)

/-- SHA-1 round function for round i. -/
def sha1F (i b c d : Nat) : Nat :=
  if i < 20 then (b &&& c) ||| ((4294967295 - b) &&& d)
  else if i < 40 then b ^^^ c ^^^ d
  else if i < 60 then (b &&& c) ||| (b &&& d) ||| (c &&& d)
  else b ^^^ c ^^^ d

/-- SHA-1 round constant for round i. -/
def sha1K (i : Nat) : Nat :=
  if i < 20 then 1518500249
  else if i < 40 then 1859775393
  else if i < 60 then 2400959708
  else 3395469782

/-- One SHA-1 compression round applied to the five-word state. -/
def sha1Round (i w : Nat) : Nat × Nat × Nat × Nat × Nat → Nat × Nat × Nat × Nat × Nat
  | (a, b, c, d, e) =>
    ((rotl32 5 a + sha1F i b c d + e + sha1K i + w) % 4294967296, a, rotl32 30 b, c, d)

/-- Run the 80 SHA-1 rounds over the scheduled words. -/
def sha1Rounds (ws : List Nat) (st : Nat × Nat × Nat × Nat × Nat) : Nat × Nat × Nat × Nat × Nat :=
  (ws.foldl (fun (p : Nat × (Nat × Nat × Nat × Nat × Nat)) w =>
    (p.1 + 1, sha1Round p.1 w p.2)) (0, st)).2

/-- SHA-1 compression of one 64-byte chunk into the running five-word state. -/
def sha1Chunk (h : Nat × Nat × Nat × Nat × Nat) (chunk : List Nat) : Nat × Nat × Nat × Nat × Nat :=
  let ws := (sha1ExtendRev 64 (words32 chunk).reverse).reverse
  let (a, b, c, d, e) := sha1Rounds ws h
  ((h.1 + a) % 4294967296, (h.2.1 + b) % 4294967296, (h.2.2.1 + c) % 4294967296,
   (h.2.2.2.1 + d) % 4294967296, (h.2.2.2.2 + e) % 4294967296)

/-- The 20 digest bytes of SHA-1 applied to a byte list. -/
def sha1Bytes (msg : List Nat) : List Nat :=
  let f := (chunks64 (sha1Pad msg)).foldl sha1Chunk
    (1732584193, 4023233417, 2562383102, 271733878, 3285377520)
  toBE 4 f.1 ++ toBE 4 f.2.1 ++ toBE 4 f.2.2.1 ++ toBE 4 f.2.2.2.1 ++ toBE 4 f.2.2.2.2

/-- The SHA-1 hash of a byte list as a 40-character lowercase hex string,
mirroring the sha1 utility of the source. -/
def sha1Hex (msg : List Nat) : String :=
  hexEncode (sha1Bytes msg)

/-! ## Object store (src/core/object.rs) -/

/-- The on-disk object store: object files keyed by their 40-hex SHA-1 name
(the two-level directory split of the source is a pure path encoding of this
key and is not observable through save/load). -/
abbrev Store := List (String × List Nat)

/-- First-match association lookup, modelling reading the file at a key. -/
def storeFind : Store → String → Option (List Nat)
  | [], _ => none
  | (k, v) :: r, s => if k = s then some v else storeFind r s

/-- Overwriting insert, modelling creating or overwriting the file at a key. -/
def storeInsert (st : Store) (k : String) (v : List Nat) : Store :=
  (k, v) :: st.filter (fun p => p.1 ≠ k)

/-- The four object kinds of the Object enum. -/
inductive ObjKind
  | blob
  | tree
  | commit
  | tag
deriving DecidableEq, Repr

/-- The kind tag written in the object header. -/
def ObjKind.str : ObjKind → String
  | .blob => "blob"
  | .tree => "tree"
  | .commit => "commit"
  | .tag => "tag"

/-- Header bytes of a stored object: the kind, a space, the payload byte
length in decimal, and a terminating null byte. -/
def objHeader (k : ObjKind) (len : Nat) : List Nat :=
  strBytes k.str ++ 32 :: natToDecimal len ++ [0]

/-- Raw file content of a stored object: header plus payload. -/
def objRaw (k : ObjKind) (data : List Nat) : List Nat :=
  objHeader k data.length ++ data

/-- Hash under which an object is stored: SHA-1 of header plus payload. -/
def objectHash (k : ObjKind) (data : List Nat) : String :=
  sha1Hex (objRaw k data)

/-- Object save (Object::save): computes the hash of header plus payload,
writes the raw bytes at that key, and returns the hash. -/
def Object.save (k : ObjKind) (data : List Nat) (st : Store) : String × Store :=
  let hash := objectHash k data
  (hash, storeInsert st hash (objRaw k data))

/-- Position of the first zero byte of a list, mirroring the iterator
position call of Object::load. -/
def firstZero : List Nat → Option Nat
  | [] => none
  | 0 :: _ => some 0
  | (_ + 1) :: r => (firstZero r).map (· + 1)

/-- Object load (Object::load): rejects a hash shorter than 40 characters,
looks the object file up, and strips everything up to and including the
first null byte (position 0 is assumed when no null byte exists). -/
def Object.load (st : Store) (sha : String) : Option (List Nat) :=
  if sha.length < 40 then none
  else
    match storeFind st sha with
    | none => none
    | some data => some (data.drop ((firstZero data).getD 0 + 1))

/-! ## Paths

PathBuf values are modelled as their UTF-8 bytes; the parent and file-name
operations work on the final slash (byte 47), which agrees with the
component-based Rust operations on the normal relative paths the program
builds. -/

/-- Parent of a path (Path::parent): none for the empty path, otherwise the
bytes before the last slash (the empty path when there is no slash). -/
def pathParent? (p : List Nat) : Option (List Nat) :=
  if p.isEmpty then none
  else some ((p.reverse.dropWhile (fun b => b ≠ 47)).tail.reverse)

/-- Final component of a path (Path::file_name with the fallback the source
uses): the bytes after the last slash. -/
def pathFileName (p : List Nat) : List Nat :=
  (p.reverse.takeWhile (fun b => b ≠ 47)).reverse

/-- Path::strip_prefix against the repository root, with the unwrap_or
fallback of Index::stage_file: an empty root strips nothing, a true prefix
(as a component chain) is removed, anything else is returned unchanged. -/
def pathStripRepo (repo p : List Nat) : List Nat :=
  if repo = [] then p
  else if (repo ++ [47]).isPrefixOf p then p.drop (repo.length + 1)
  else if p = repo then []
  else p

/-! ## Index (src/core/index.rs) -/

/-- One staged entry of the index. -/
structure IndexEntry where
  path : List Nat
  sha : String
  mode : Nat
  mtime : Nat
  ctime : Nat
  size : Nat
deriving DecidableEq, Repr

/-- Serialized bytes of one index entry: raw 20-byte hash, 4-byte mode,
8-byte mtime, 8-byte ctime, 8-byte size, one path-length byte (the as-u8
cast truncates modulo 256), then the path bytes. Fails (none) when the
recorded hash is not valid hex, as the unwrap on hex decode panics. -/
def indexEntryBytes (e : IndexEntry) : Option (List Nat) :=
  (hexDecode e.sha).map fun sha =>
    sha ++ toBE 4 e.mode ++ toBE 8 e.mtime ++ toBE 8 e.ctime ++ toBE 8 e.size
      ++ ((e.path.length % 256) :: e.path)

/-- Index save (Index::save): concatenation of the serialized entries, in
the iteration order of the entry map. -/
def Index.save : List IndexEntry → Option (List Nat)
  | [] => some []
  | e :: r => do
    let b ← indexEntryBytes e
    let br ← Index.save r
    pure (b ++ br)

/-- Fuel-driven loop of Index::load. Each step requires 48 bytes of fixed
fields to remain (otherwise the loop ends, ignoring the remainder), then
reads the path-length byte and the path, panicking (none) when these run
past the end of the buffer or the path bytes are not valid UTF-8. -/
def indexLoadLoop : Nat → List Nat → Option (List IndexEntry)
  | 0, _ => none
  | fuel + 1, content =>
    if content.length < 48 then some []
    else
      let sha := hexEncode (content.take 20)
      let mode := fromBE ((content.drop 20).take 4)
      let mtime := fromBE ((content.drop 24).take 8)
      let ctime := fromBE ((content.drop 32).take 8)
      let size := fromBE ((content.drop 40).take 8)
      match content.drop 48 with
      | [] => none
      | plen :: rest =>
        if rest.length < plen then none
        else
          let path := rest.take plen
          if validUtf8 path then
            (indexLoadLoop fuel (rest.drop plen)).map
              (fun es => { path, sha, mode, mtime, ctime, size } :: es)
          else none

/-- Index load (Index::load): parse the whole index file into the entry
list, in record order (the source inserts each record into its map). -/
def Index.load (content : List Nat) : Option (List IndexEntry) :=
  indexLoadLoop (content.length + 1) content

/-- Metadata of a live file as the staging code reads it: the readonly
permission bit, the executable permission bit, the modification time in
seconds, and the byte size. The source consults only the readonly bit. -/
structure FileMeta where
  readonly : Bool
  executable : Bool
  mtime : Nat
  size : Nat
deriving DecidableEq, Repr

/-- Map insert keyed by entry path, modelling the entry-map insert of
Index::stage_file (any previous entry for the path is replaced). -/
def idxInsert (es : List IndexEntry) (e : IndexEntry) : List IndexEntry :=
  es.filter (fun x => x.path ≠ e.path) ++ [e]

/-- Index::stage_file on the loaded entry list: derives the mode from the
readonly bit (0o100644 when readonly, 0o100755 otherwise), takes mtime,
ctime and size from the file metadata, keys the entry by the path relative
to the repository root, and inserts it, replacing any existing entry. The
source then persists the index, which serializes exactly the returned
entries. -/
def Index.stage_file (repoPath : List Nat) (es : List IndexEntry)
    (filePath : List Nat) (meta : FileMeta) (objSha : String) : List IndexEntry :=
  let mode := if meta.readonly then 0o100644 else 0o100755
  let rel := pathStripRepo repoPath filePath
  idxInsert es { path := rel, sha := objSha, mode, mtime := meta.mtime, ctime := meta.mtime, size := meta.size }

/-! ## Trees (src/core/tree.rs) -/

/-- One tree entry (TreeEntry of the source): name bytes, hex hash string,
mode, and the directory flag. -/
structure TreeEntry where
  name : List Nat
  hash : String
  mode : Nat
  is_dir : Bool
deriving DecidableEq, Repr

/-- Serialized buffer of a tree-entry list as built by
TreeProcessor::create_tree: per entry, the octal mode string, a space, the
name, a null byte, and the 20 raw hash bytes. Fails (none) when a hash is
not valid hex, as the unwrap on hex decode panics. -/
def treeBuf : List TreeEntry → Option (List Nat)
  | [] => some []
  | e :: rest => do
    let sha ← hexDecode e.hash
    let r ← treeBuf rest
    pure (natToBase8 e.mode ++ 32 :: (e.name ++ 0 :: (sha ++ r)))

/-- TreeProcessor::create_tree: serialize the entries and save the result as
a Tree object, returning its hash; none models the panic on an invalid
recorded hash. -/
def TreeProcessor.create_tree (st : Store) (entries : List TreeEntry) : Option (String × Store) :=
  (treeBuf entries).map fun b => Object.save .tree b st

/-- Octal parse mirroring the Rust u32 from_str_radix with radix 8 applied
to the mode field: an optional leading plus sign, then at least one octal
digit, with the u32 range bound; none models the unwrap panic on an empty,
non-octal or overflowing string (a mode field that is not valid UTF-8 also
lands here, since its bytes then cannot all be octal digits). -/
def parseOctalU32 (l : List Nat) : Option Nat :=
  let ds := if l.head? = some 43 then l.tail else l
  if ds.isEmpty then none
  else if ds.all (fun d => 48 ≤ d && d ≤ 55) then
    let v := ds.foldl (fun a d => a * 8 + (d - 48)) 0
    if v < 4294967296 then some v else none
  else none

/-- Parse one record of a tree payload, mirroring one iteration of the
TreeProcessor::parse_tree loop: the mode string up to a space, the name up
to a null byte, then exactly 20 raw hash bytes; returns the entry and the
remaining bytes. The none cases model the panics of the source: running
past the end while scanning for the space or the null byte, a mode that
from_str_radix rejects, a name that is not valid UTF-8, or fewer than 20
bytes left for the hash. -/
def parseRecord (l : List Nat) : Option (TreeEntry × List Nat) :=
  let m := l.takeWhile (fun b => b ≠ 32)
  match l.dropWhile (fun b => b ≠ 32) with
  | [] => none
  | _ :: r2 =>
    match parseOctalU32 m with
    | none => none
    | some mode =>
      let nm := r2.takeWhile (fun b => b ≠ 0)
      match r2.dropWhile (fun b => b ≠ 0) with
      | [] => none
      | _ :: r4 =>
        if validUtf8 nm then
          if r4.length < 20 then none
          else some ({ name := nm, hash := hexEncode (r4.take 20), mode,
                       is_dir := mode == 0o40000 }, r4.drop 20)
        else none

/-- Fuel-driven loop of TreeProcessor::parse_tree: parse records until the
buffer is empty; a failed record parse is a panic (none). -/
def parseTreeLoop : Nat → List Nat → Option (List TreeEntry)
  | 0, _ => none
  | _ + 1, [] => some []
  | fuel + 1, l =>
    match parseRecord l with
    | none => none
    | some (e, rest) => (parseTreeLoop fuel rest).map (e :: ·)

/-- TreeProcessor::parse_tree on a tree payload: the entry list, or none
when the source panics (buffer ending mid-record or malformed field). -/
def TreeProcessor.parse_tree (l : List Nat) : Option (List TreeEntry) :=
  parseTreeLoop (l.length + 1) l

/-- Grouping map of create_tree_from_index: parent directory to the index
entries of the files directly inside it. -/
abbrev DirMap := List (List Nat × List IndexEntry)

/-- Lookup in the grouping map. -/
def dirMapFind : DirMap → List Nat → Option (List IndexEntry)
  | [], _ => none
  | (k, v) :: r, s => if k = s then some v else dirMapFind r s

/-- Append an entry to the vector at a key, inserting the key when absent
(the or_default push of the source). -/
def dirMapPush : DirMap → List Nat → IndexEntry → DirMap
  | [], k, e => [(k, [e])]
  | (k', v) :: r, k, e =>
    if k' = k then (k', v ++ [e]) :: r else (k', v) :: dirMapPush r k e

/-- Build the grouping map of create_tree_from_index: each index entry is
pushed under its parent directory (the empty path for a bare file name). -/
def buildDirMap (idx : List IndexEntry) : DirMap :=
  idx.foldl (fun m e => dirMapPush m ((pathParent? e.path).getD []) e) []

/-- Recursive tree construction mirroring TreeProcessor::build_tree, with
structural fuel bounding the recursion depth (the caller supplies more fuel
than any chain of nested directories can consume, so the fuel never runs
out on the arguments used). For the current directory it emits an entry per
grouped file that is not a live directory, then one directory entry per
grouping key whose parent is the current directory, recursing for its hash;
the entries are serialized and saved as a Tree object. The Store threads
the object writes; fsDirs lists the paths that are directories on the live
filesystem (the is_dir check of the source). -/
def buildTree : Nat → List (List Nat) → DirMap → Store → List Nat → Option (String × Store)
  | 0, _, _, _, _ => none
  | fuel + 1, fsDirs, dm, st, current =>
    let files := (dirMapFind dm current).getD []
    let fileEntries := files.filterMap fun e =>
      if fsDirs.contains e.path then none
      else some { name := pathFileName e.path, hash := e.sha, mode := e.mode, is_dir := false }
    let subdirs := (dm.map (fun p => p.1)).filter fun k =>
      pathParent? k == some current && k ≠ current
    let folded := subdirs.foldl
      (fun (acc : Option (List TreeEntry × Store)) sd =>
        match acc with
        | none => none
        | some (es, st1) =>
          match buildTree fuel fsDirs dm st1 sd with
          | none => none
          | some (h, st2) =>
            some (es ++ [{ name := pathFileName sd, hash := h, mode := 0o40000, is_dir := true }], st2))
      (some ([], st))
    match folded with
    | none => none
    | some (subdirEntries, st') => TreeProcessor.create_tree st' (fileEntries ++ subdirEntries)

/-- Fuel bound used for the recursion: longer than any path in the index. -/
def treeFuel (idx : List IndexEntry) : Nat :=
  idx.foldl (fun a e => a + e.path.length + 1) 1

/-- TreeProcessor::create_tree_from_index: group the staged entries by
parent directory and build the tree of the root (empty) directory. -/
def TreeProcessor.create_tree_from_index (st : Store) (fsDirs : List (List Nat))
    (idx : List IndexEntry) : Option (String × Store) :=
  buildTree (treeFuel idx) fsDirs (buildDirMap idx) st []

/-! ## Commit composition (src/core/commit.rs and src/commands/commit.rs) -/

/-- Commit text composed by CommitBuilder::create_commit, with the
timestamp passed explicitly (the source samples the clock once and uses the
same value in both places it appears). -/
def CommitBuilder.create_commit_content (tree_hash : String) (parent_commit : Option String)
    (author_info : String) (timestamp : String) (commit_message : String) : String :=
  let c := "tree " ++ tree_hash ++ "\n"
  let c := match parent_commit with
    | some parent_hash => c ++ ("parent " ++ parent_hash ++ "\n")
    | none => c
  let c := c ++ ("author " ++ author_info ++ " " ++ timestamp ++ "\n")
  let c := c ++ ("committer " ++ author_info ++ " " ++ timestamp ++ "\n")
  let c := c ++ "\n"
  c ++ commit_message

/-- Commit text composed inline by the git_commit command (the code path
the commit command actually runs), with the fixed author string and the
sampled timestamp passed explicitly. -/
def gitCommitContent (tree_sha : String) (parent : Option String)
    (timestamp : String) (message : String) : String :=
  let c := "tree " ++ tree_sha ++ "\n"
  let c := match parent with
    | some parent_sha => c ++ ("parent " ++ parent_sha ++ "\n")
    | none => c
  c ++ ("author You <you@example.com> " ++ timestamp ++ "\n\n" ++ message)

/-! ## Checkout (src/commands/checkout.rs) -/

/-- ASCII whitespace trim, mirroring the Rust str trim on the ASCII ref and
HEAD contents this program writes. -/
def strTrim (s : String) : String :=
  let ws : Char → Bool := fun c => c = ' ' || c = '\n' || c = '\t' || c = '\r'
  ⟨((s.data.dropWhile ws).reverse.dropWhile ws).reverse⟩

/-- Whether one string is a prefix of another (str starts_with). -/
def strHasPre (pre s : String) : Bool :=
  s.data.take pre.data.length == pre.data

/-- Strip a string prefix when present (str strip_prefix). -/
def strStripPre (pre s : String) : Option String :=
  if strHasPre pre s then some ⟨s.data.drop pre.data.length⟩ else none

/-- Lookup of a ref file under the control directory. -/
def refFind : List (String × String) → String → Option String
  | [], _ => none
  | (k, v) :: r, s => if k = s then some v else refFind r s

/-- Overwriting write of a ref file (Reference::create without the
directory bookkeeping, which is invisible at this level). -/
def refInsert (refs : List (String × String)) (k v : String) : List (String × String) :=
  (k, v) :: refs.filter (fun p => p.1 ≠ k)

/-- Reference::resolve: read the ref file if it exists and return its
trimmed content. -/
def Reference.resolve (refs : List (String × String)) (name : String) : Option String :=
  (refFind refs name).map strTrim

/-- Repository state visible to the checkout engine: HEAD content, ref
files, the object store, the loaded index entries, and the readable files
of the working directory (a path absent from workdir is a file the read
fails on, for example a deleted tracked file). -/
structure RepoState where
  head : String
  refs : List (String × String)
  objects : Store
  indexEntries : List IndexEntry
  workdir : List (List Nat × List Nat)
deriving DecidableEq, Repr

/-- Association lookup of a working-directory file by path. -/
def wdFind : List (List Nat × List Nat) → List Nat → Option (List Nat)
  | [], _ => none
  | (k, v) :: r, s => if k = s then some v else wdFind r s

/-- Loop of is_workdir_clean over the index entries: for each entry whose
file can be read, save its content as a Blob object (this writes to the
object store) and compare the returned hash with the recorded one,
stopping at the first mismatch; an unreadable file is skipped. Returns the
verdict together with the object store as mutated by the blob saves. -/
def cleanLoop : List IndexEntry → List (List Nat × List Nat) → Store → Bool × Store
  | [], _, st => (true, st)
  | e :: rest, wd, st =>
    match wdFind wd e.path with
    | none => cleanLoop rest wd st
    | some content =>
      let r := Object.save .blob content st
      if r.1 = e.sha then cleanLoop rest wd r.2 else (false, r.2)

/-- is_workdir_clean of the checkout command. -/
def is_workdir_clean (st : RepoState) : Bool × Store :=
  cleanLoop st.indexEntries st.workdir st.objects

/-- Failure outcomes of the modelled checkout prefix: the dirty-tree panic
of step 1, or one of the expect panics of target resolution. Each failure
carries the repository state as left on disk at the panic. -/
inductive CheckoutErr
  | dirtyWorkingTree
  | panicked (msg : String)
deriving DecidableEq, Repr

/-- The checkout command up to and including the HEAD write (steps 1 to 5
of git_checkout: clean check, HEAD read, target resolution, optional new
branch creation, HEAD update). The later working-tree restoration never
touches HEAD or the refs, so the claims about the clean-check guard and
the written HEAD are decided within this prefix. -/
def git_checkout_upToHead (st0 : RepoState) (target : String) (create_new : Bool) :
    Except (CheckoutErr × RepoState) RepoState :=
  let r := is_workdir_clean st0
  let st := { st0 with objects := r.2 }
  if r.1 = false then .error (.dirtyWorkingTree, st)
  else
    let head_ref := strTrim st.head
    let current_branch_ref := (strStripPre "ref: " head_ref).getD ""
    let target_branch_ref := "refs/heads/" ++ target
    let resolved : Except (CheckoutErr × RepoState) (String × RepoState) :=
      if create_new then
        match Reference.resolve st.refs current_branch_ref with
        | none => .error (.panicked "Cannot create branch: current branch has no commits", st)
        | some base_commit =>
          .ok (base_commit, { st with refs := refInsert st.refs target_branch_ref base_commit })
      else if (refFind st.refs target_branch_ref).isSome then
        match Reference.resolve st.refs target_branch_ref with
        | none => .error (.panicked "Target branch has no commit", st)
        | some sha => .ok (sha, st)
      else .ok (target, st)
    match resolved with
    | .error e => .error e
    | .ok (target_commit_sha, st1) =>
      let new_head_content :=
        if create_new || strHasPre "refs/heads/" target_branch_ref then
          "ref: " ++ target_branch_ref
        else target_commit_sha
      .ok { st1 with head := new_head_content }

deriving instance DecidableEq for Except

/-! ## Helper lemmas -/

theorem toBE_length (w n : Nat) : (toBE w n).length = w := by
  induction w generalizing n with
  | zero => rfl
  | succ w ih => simp [toBE, ih]

theorem fromBE_toBE (w n : Nat) (h : n < 256 ^ w) : fromBE (toBE w n) = n := by
  induction w generalizing n with
  | zero => simp at h; simp [toBE, fromBE, h]
  | succ w ih =>
    have hdiv : n / 256 < 256 ^ w := by
      rw [Nat.div_lt_iff_lt_mul (by omega)]
      calc n < 256 ^ (w + 1) := h
        _ = 256 ^ w * 256 := by rw [Nat.pow_succ]
    have hrec := ih (n / 256) hdiv
    simp only [toBE, fromBE] at hrec ⊢
    rw [List.foldl_append]
    simp only [List.foldl, hrec]
    omega

theorem digitsLoop_mem (base fuel n : Nat) (hb : 2 ≤ base) (hf : n ≤ fuel) :
    ∀ b ∈ digitsLoop base fuel n, 48 ≤ b ∧ b ≤ 47 + base := by
  induction fuel generalizing n with
  | zero =>
    intro b hbmem
    simp only [digitsLoop] at hbmem
    simp at hbmem
    have : n % base < base := Nat.mod_lt n (by omega)
    omega
  | succ fuel ih =>
    intro b hbmem
    simp only [digitsLoop] at hbmem
    by_cases hn : n < base
    · simp [hn] at hbmem; omega
    · simp [hn] at hbmem
      rcases hbmem with h | h
      · have hlt : n / base < n := Nat.div_lt_self (by omega) (by omega)
        exact ih (n / base) (by omega) b h
      · have : n % base < base := Nat.mod_lt n (by omega)
        omega

theorem digitsLoop_ne_nil (base fuel n : Nat) : digitsLoop base fuel n ≠ [] := by
  cases fuel with
  | zero => simp [digitsLoop]
  | succ fuel =>
    simp only [digitsLoop]
    by_cases hn : n < base <;> simp [hn]

theorem natToDecimal_mem (n : Nat) : ∀ b ∈ natToDecimal n, 48 ≤ b ∧ b ≤ 57 := by
  intro b hb
  have := digitsLoop_mem 10 n n (by omega) (Nat.le_refl n) b hb
  omega

theorem natToBase8_mem (n : Nat) : ∀ b ∈ natToBase8 n, 48 ≤ b ∧ b ≤ 55 := by
  intro b hb
  have := digitsLoop_mem 8 n n (by omega) (Nat.le_refl n) b hb
  omega

theorem digitsLoop_foldl (base fuel n acc : Nat) (hb : 2 ≤ base) (hf : n ≤ fuel) :
    (digitsLoop base fuel n).foldl (fun a d => a * base + (d - 48)) acc
      = acc * base ^ (digitsLoop base fuel n).length + n := by
  induction fuel generalizing n acc with
  | zero =>
    have hn0 : n = 0 := by omega
    subst hn0
    simp [digitsLoop]
  | succ fuel ih =>
    simp only [digitsLoop]
    by_cases hn : n < base
    · simp [hn]
    · simp only [if_neg hn]
      rw [List.foldl_append]
      have hlt : n / base < n := Nat.div_lt_self (by omega) (by omega)
      rw [ih (n / base) acc (by omega)]
      simp only [List.foldl, List.length_append, List.length_cons, List.length_nil, Nat.pow_succ]
      have hmod : n % base < base := Nat.mod_lt n (by omega)
      have hdm : base * (n / base) + n % base = n := Nat.div_add_mod n base
      have h48 : 48 + n % base - 48 = n % base := by omega
      rw [h48]
      calc (acc * base ^ (digitsLoop base fuel (n / base)).length + n / base) * base + n % base
          = acc * (base ^ (digitsLoop base fuel (n / base)).length * base)
            + (base * (n / base) + n % base) := by ring
        _ = acc * (base ^ (digitsLoop base fuel (n / base)).length * base) + n := by rw [hdm]

theorem parseOctalU32_natToBase8 (m : Nat) (hm : m < 4294967296) :
    parseOctalU32 (natToBase8 m) = some m := by
  have hne := digitsLoop_ne_nil 8 m m
  have hmem := natToBase8_mem m
  unfold natToBase8 at hne hmem ⊢
  rcases hl : digitsLoop 8 m m with _ | ⟨d, ds⟩
  · exact absurd hl hne
  · have hd : 48 ≤ d ∧ d ≤ 55 := hmem d (by rw [hl]; exact List.mem_cons_self d ds)
    have hfold := digitsLoop_foldl 8 m m 0 (by omega) (Nat.le_refl m)
    rw [hl] at hfold
    simp only [parseOctalU32]
    have hhead : (d :: ds).head? ≠ some 43 := by simp; omega
    rw [if_neg hhead]
    have hall : (d :: ds).all (fun d => 48 ≤ d && d ≤ 55) = true := by
      rw [List.all_eq_true]
      intro b hb
      have := hmem b (by rw [hl]; exact hb)
      simp; omega
    simp only [List.isEmpty_cons, if_neg, hall, if_true]
    simp only [Bool.false_eq_true, if_false]
    rw [show ((d :: ds).foldl (fun a d => a * 8 + (d - 48)) 0) = m by
      rw [hfold]; ring]
    simp [hm]

/-- Lowercase hexadecimal digit character test. -/
def lhexChar (c : Char) : Bool :=
  (48 ≤ c.toNat && c.toNat ≤ 57) || (97 ≤ c.toNat && c.toNat ≤ 102)

theorem lhex_hexVal (c : Char) (h : lhexChar c = true) :
    ∃ v, hexVal c = some v ∧ v < 16 ∧ hexDigitChar v = c := by
  simp only [lhexChar, Bool.or_eq_true, Bool.and_eq_true, decide_eq_true_eq] at h
  rcases h with ⟨h1, h2⟩ | ⟨h1, h2⟩
  · refine ⟨c.toNat - 48, ?_, by omega, ?_⟩
    · simp [hexVal, h1, h2]
    · have hv : c.toNat - 48 < 10 := by omega
      simp only [hexDigitChar, if_pos hv]
      rw [show 48 + (c.toNat - 48) = c.toNat by omega]
      exact Char.ofNat_toNat c
  · refine ⟨c.toNat - 87, ?_, by omega, ?_⟩
    · have hno : ¬(48 ≤ c.toNat ∧ c.toNat ≤ 57) := by omega
      simp [hexVal, hno, h1, h2]
    · have hv : ¬(c.toNat - 87 < 10) := by omega
      simp only [hexDigitChar, if_neg hv]
      rw [show 87 + (c.toNat - 87) = c.toNat by omega]
      exact Char.ofNat_toNat c

theorem hexDecodeChars_roundtrip :
    ∀ l : List Char, (∀ c ∈ l, lhexChar c = true) → l.length % 2 = 0 →
      ∃ bs, hexDecodeChars l = some bs ∧ 2 * bs.length = l.length ∧
        (bs.map (fun b => [hexDigitChar (b / 16), hexDigitChar (b % 16)])).flatten = l := by
  intro l
  induction l using hexDecodeChars.induct with
  | case1 =>
    intro _ _
    exact ⟨[], rfl, rfl, rfl⟩
  | case2 c =>
    intro _ hlen
    simp at hlen
  | case3 c1 c2 rest ih =>
    intro hmem hlen
    obtain ⟨v1, hv1, hv1lt, hc1⟩ := lhex_hexVal c1 (hmem c1 (by simp))
    obtain ⟨v2, hv2, hv2lt, hc2⟩ := lhex_hexVal c2 (hmem c2 (by simp))
    obtain ⟨bs, hbs, hbslen, hbsenc⟩ := ih
      (fun c hc => hmem c (by simp [hc]))
      (by simp at hlen ⊢; omega)
    refine ⟨(16 * v1 + v2) :: bs, ?_, by simp; omega, ?_⟩
    · simp [hexDecodeChars, hv1, hv2, hbs]
    · have hdiv : (16 * v1 + v2) / 16 = v1 := by
        rw [Nat.mul_add_div (by omega)]
        simp [Nat.div_eq_of_lt hv2lt]
      have hmod : (16 * v1 + v2) % 16 = v2 := by
        rw [Nat.mul_add_mod]
        exact Nat.mod_eq_of_lt hv2lt
      simp [hdiv, hmod, hc1, hc2, hbsenc]

/-- Whether a string is a 40-character lowercase hexadecimal hash, the shape
of every hash this program itself produces. -/
def isLowerHex40 (s : String) : Bool :=
  s.data.length == 40 && s.data.all lhexChar

theorem hexDecode_lower40 (s : String) (h : isLowerHex40 s = true) :
    ∃ bs, hexDecode s = some bs ∧ bs.length = 20 ∧ hexEncode bs = s := by
  simp only [isLowerHex40, Bool.and_eq_true, beq_iff_eq, List.all_eq_true] at h
  obtain ⟨bs, hbs, hlen, henc⟩ := hexDecodeChars_roundtrip s.data h.2 (by omega)
  refine ⟨bs, hbs, by omega, ?_⟩
  rw [hexEncode, henc]

theorem flatten_pairs_length {α β : Type} (f g : α → β) (bs : List α) :
    ((bs.map (fun b => [f b, g b])).flatten).length = 2 * bs.length := by
  induction bs with
  | nil => rfl
  | cons b r ih => simp [ih]; ring

theorem hexEncode_length (bs : List Nat) : (hexEncode bs).length = 2 * bs.length := by
  show ((bs.map (fun b => [hexDigitChar (b / 16), hexDigitChar (b % 16)])).flatten).length = 2 * bs.length
  exact flatten_pairs_length _ _ bs

theorem sha1Bytes_length (m : List Nat) : (sha1Bytes m).length = 20 := by
  simp [sha1Bytes, toBE_length]

theorem sha1Hex_length (m : List Nat) : (sha1Hex m).length = 40 := by
  rw [sha1Hex, hexEncode_length, sha1Bytes_length]

theorem storeFind_insert (st : Store) (k : String) (v : List Nat) :
    storeFind (storeInsert st k v) k = some v := by
  simp [storeFind, storeInsert]

theorem firstZero_append (pre rest : List Nat) (h : ∀ b ∈ pre, b ≠ 0) :
    firstZero (pre ++ 0 :: rest) = some pre.length := by
  induction pre with
  | nil => rfl
  | cons b r ih =>
    have hb : b ≠ 0 := h b (by simp)
    rcases b with _ | b
    · exact absurd rfl hb
    · simp only [List.cons_append, firstZero, List.append_eq]
      rw [ih (fun x hx => h x (by simp [hx]))]
      rfl

theorem objRaw_decomp (k : ObjKind) (d : List Nat) :
    objRaw k d = (strBytes k.str ++ 32 :: natToDecimal d.length) ++ 0 :: d := by
  simp [objRaw, objHeader]

theorem kindBytes_ne_zero (k : ObjKind) : ∀ b ∈ strBytes k.str, b ≠ 0 := by
  have hall : (strBytes k.str).all (fun b => b != 0) = true := by cases k <;> decide
  intro b hb
  have := List.all_eq_true.mp hall b hb
  simpa using this

theorem objRaw_pre_ne_zero (k : ObjKind) (len : Nat) :
    ∀ b ∈ strBytes k.str ++ 32 :: natToDecimal len, b ≠ 0 := by
  intro b hb
  simp only [List.mem_append, List.mem_cons] at hb
  rcases hb with hb | hb | hb
  · exact kindBytes_ne_zero k b hb
  · omega
  · have := natToDecimal_mem len b hb
    omega

theorem firstZero_objRaw (k : ObjKind) (d : List Nat) :
    firstZero (objRaw k d) = some (strBytes k.str ++ 32 :: natToDecimal d.length).length := by
  rw [objRaw_decomp]
  exact firstZero_append _ _ (objRaw_pre_ne_zero k d.length)

theorem objRaw_drop (k : ObjKind) (d : List Nat) :
    (objRaw k d).drop ((strBytes k.str ++ 32 :: natToDecimal d.length).length + 1) = d := by
  rw [objRaw_decomp, ← List.drop_drop, List.drop_left]
  rfl

/-! ## Claim theorems -/

/-- C1: for every kind K in blob, tree, commit, tag and every byte payload P,
Object::save(K, P) deterministically returns the same hash however often it
is repeated and whatever the prior store contents, and Object::load applied
to that hash on the resulting store returns exactly P: the stored header of
the form kind, space, byte length, null is stripped up to and including the
first null byte. -/
theorem object_save_load_roundtrip (k : ObjKind) (p : List Nat) (st st' : Store) :
    (Object.save k p st).1 = (Object.save k p st').1 ∧
    Object.load (Object.save k p st).2 (Object.save k p st).1 = some p := by
  constructor
  · rfl
  · show Object.load (storeInsert st (objectHash k p) (objRaw k p)) (objectHash k p) = some p
    have hlen : ¬ (objectHash k p).length < 40 := by
      rw [objectHash, sha1Hex_length]; omega
    rw [Object.load, if_neg hlen, storeFind_insert]
    dsimp only
    rw [firstZero_objRaw]
    simp only [Option.getD_some]
    rw [objRaw_drop]

theorem takeWhile_sep {p : Nat → Bool} (pre : List Nat) (sep : Nat) (rest : List Nat)
    (hpre : ∀ b ∈ pre, p b = true) (hsep : p sep = false) :
    (pre ++ sep :: rest).takeWhile p = pre ∧ (pre ++ sep :: rest).dropWhile p = sep :: rest := by
  induction pre with
  | nil => simp [List.takeWhile, List.dropWhile, hsep]
  | cons b r ih =>
    have hb := hpre b (by simp)
    obtain ⟨h1, h2⟩ := ih (fun x hx => hpre x (by simp [hx]))
    simp [List.takeWhile, List.dropWhile, hb, h1, h2]

theorem dropWhile_head_false {p : Nat → Bool} :
    ∀ (l : List Nat) (b : Nat) (r : List Nat), l.dropWhile p = b :: r → p b = false := by
  intro l
  induction l with
  | nil => intro b r h; simp [List.dropWhile] at h
  | cons x xs ih =>
    intro b r h
    rw [List.dropWhile_cons] at h
    by_cases hx : p x = true
    · rw [if_pos hx] at h
      exact ih b r h
    · rw [if_neg hx] at h
      cases h
      simpa using hx

theorem parseRecord_of_record (mode : Nat) (name sha rest : List Nat)
    (hmode : mode < 4294967296) (hname : 0 ∉ name) (hutf : validUtf8 name = true)
    (hsha : sha.length = 20) :
    parseRecord (natToBase8 mode ++ 32 :: (name ++ 0 :: (sha ++ rest)))
      = some ({ name := name, hash := hexEncode sha, mode := mode,
                is_dir := mode == 0o40000 }, rest) := by
  obtain ⟨ht1, hd1⟩ := takeWhile_sep (p := fun b => b ≠ 32) (natToBase8 mode) 32
    (name ++ 0 :: (sha ++ rest))
    (fun b hb => by have := natToBase8_mem mode b hb; simp; omega)
    (by simp)
  obtain ⟨ht2, hd2⟩ := takeWhile_sep (p := fun b => b ≠ 0) name 0 (sha ++ rest)
    (fun b hb => by simp; exact fun h => hname (h ▸ hb))
    (by simp)
  rw [parseRecord]
  rw [ht1, hd1]
  dsimp only
  rw [parseOctalU32_natToBase8 mode hmode]
  rw [ht2, hd2]
  dsimp only
  rw [if_pos hutf]
  have hlen : ¬ (sha ++ rest).length < 20 := by simp [hsha]
  rw [if_neg hlen]
  rw [List.take_left' hsha, List.drop_left' hsha]

theorem dropWhile_length_le (p : Nat → Bool) (l : List Nat) :
    (l.dropWhile p).length ≤ l.length := by
  induction l with
  | nil => simp
  | cons x xs ih =>
    rw [List.dropWhile_cons]
    by_cases hx : p x = true
    · simp only [if_pos hx]
      simp
      omega
    · simp [if_neg hx]

theorem parseRecord_shrinks (l : List Nat) (e : TreeEntry) (rest : List Nat)
    (h : parseRecord l = some (e, rest)) : rest.length < l.length := by
  rw [parseRecord] at h
  rcases hd1 : l.dropWhile (fun b => b ≠ 32) with _ | ⟨c1, r2⟩ <;> rw [hd1] at h
  · exact absurd h (by simp)
  · rcases hoct : parseOctalU32 (l.takeWhile (fun b => b ≠ 32)) with _ | mode <;>
      rw [hoct] at h
    · exact absurd h (by simp)
    · dsimp only at h
      rcases hd2 : r2.dropWhile (fun b => b ≠ 0) with _ | ⟨c2, r4⟩ <;> rw [hd2] at h
      · exact absurd h (by simp)
      · dsimp only at h
        by_cases hutf : validUtf8 (r2.takeWhile (fun b => b ≠ 0)) = true
        · rw [if_pos hutf] at h
          by_cases hl20 : r4.length < 20
          · rw [if_pos hl20] at h; exact absurd h (by simp)
          · rw [if_neg hl20] at h
            simp only [Option.some.injEq, Prod.mk.injEq] at h
            have hrest : rest = r4.drop 20 := h.2.symm
            have h1 : r4.length < r2.length + 1 := by
              have hle := dropWhile_length_le (fun b => decide (b ≠ 0)) r2
              rw [hd2] at hle
              simp at hle
              omega
            have h2 : r2.length < l.length := by
              have hle := dropWhile_length_le (fun b => decide (b ≠ 32)) l
              rw [hd1] at hle
              simp at hle
              omega
            have : rest.length ≤ r4.length - 20 := by simp [hrest]
            omega
        · rw [if_neg hutf] at h; exact absurd h (by simp)

/-- Well-formedness of a tree entry as the serializer requires and the
program itself establishes: a 40-character lowercase hexadecimal hash (the
shape every hash this program produces has), a name with no null byte that
is valid UTF-8 (a Rust String invariant), a mode within u32 range (a Rust
u32 invariant), and a directory flag that holds exactly for the directory
mode. -/
def GoodTreeEntry (e : TreeEntry) : Prop :=
  isLowerHex40 e.hash = true ∧ 0 ∉ e.name ∧ validUtf8 e.name = true ∧
  e.mode < 4294967296 ∧ e.is_dir = (e.mode == 0o40000)

instance (e : TreeEntry) : Decidable (GoodTreeEntry e) := by
  unfold GoodTreeEntry
  infer_instance

theorem parseTreeLoop_cons (fuel : Nat) (l : List Nat) (hne : l ≠ []) :
    parseTreeLoop (fuel + 1) l =
      match parseRecord l with
      | none => none
      | some (e, rest) => (parseTreeLoop fuel rest).map (e :: ·) := by
  cases l with
  | nil => exact absurd rfl hne
  | cons b r => rfl

theorem treeBuf_length (entries : List TreeEntry) (buf : List Nat)
    (h : treeBuf entries = some buf) : entries.length ≤ buf.length := by
  induction entries generalizing buf with
  | nil => simp [treeBuf] at h; simp [← h]
  | cons e rest ih =>
    rw [treeBuf] at h
    rcases hdec : hexDecode e.hash with _ | bs <;> rw [hdec] at h
    · simp at h
    · rcases hrest : treeBuf rest with _ | bufr <;> rw [hrest] at h
      · simp at h
      · simp only [Option.pure_def, Option.bind_eq_bind, Option.some_bind,
          Option.some.injEq] at h
        have := ih bufr hrest
        subst h
        simp
        omega

theorem treeBuf_total (entries : List TreeEntry)
    (h : ∀ e ∈ entries, isLowerHex40 e.hash = true) :
    ∃ buf, treeBuf entries = some buf := by
  induction entries with
  | nil => exact ⟨[], rfl⟩
  | cons e rest ih =>
    obtain ⟨bs, hdec, _, _⟩ := hexDecode_lower40 e.hash (h e (by simp))
    obtain ⟨bufr, hrest⟩ := ih (fun x hx => h x (by simp [hx]))
    exact ⟨natToBase8 e.mode ++ 32 :: (e.name ++ 0 :: (bs ++ bufr)),
      by rw [treeBuf, hdec, hrest]; rfl⟩

theorem parseTreeLoop_complete :
    ∀ (entries : List TreeEntry) (fuel : Nat) (buf : List Nat),
      (∀ e ∈ entries, GoodTreeEntry e) → entries.length < fuel →
      treeBuf entries = some buf → parseTreeLoop fuel buf = some entries := by
  intro entries
  induction entries with
  | nil =>
    intro fuel buf _ hf hbuf
    simp [treeBuf] at hbuf
    cases fuel with
    | zero => omega
    | succ f => subst hbuf; rfl
  | cons e rest ih =>
    intro fuel buf hgood hf hbuf
    obtain ⟨hhex, hname, hutf, hmode, hdir⟩ := hgood e (by simp)
    obtain ⟨bs, hdec, hlen20, henc⟩ := hexDecode_lower40 e.hash hhex
    rw [treeBuf, hdec] at hbuf
    rcases hrest : treeBuf rest with _ | bufr <;> rw [hrest] at hbuf
    · simp at hbuf
    · simp only [Option.pure_def, Option.bind_eq_bind, Option.some_bind,
        Option.some.injEq] at hbuf
      cases fuel with
      | zero => omega
      | succ f =>
        subst hbuf
        have hne : natToBase8 e.mode ++ 32 :: (e.name ++ 0 :: (bs ++ bufr)) ≠ [] := by
          intro hcontra
          exact digitsLoop_ne_nil 8 e.mode e.mode (List.append_eq_nil.mp hcontra).1
        rw [parseTreeLoop_cons f _ hne]
        rw [parseRecord_of_record e.mode e.name bs bufr hmode hname hutf hlen20]
        dsimp only
        rw [ih f bufr (fun x hx => hgood x (by simp [hx])) (by simp at hf; omega) hrest]
        rw [henc, ← hdir]
        rfl

/-- The buffer is a concatenation of complete tree records (octal mode then
a space, name then a null byte, exactly 20 raw hash bytes), and the entry
list is exactly what those records denote. -/
inductive ConcatRecords : List Nat → List TreeEntry → Prop where
  | nil : ConcatRecords [] []
  | cons (m nm sha rest : List Nat) (es : List TreeEntry) (e : TreeEntry) :
      32 ∉ m → parseOctalU32 m = some e.mode → nm = e.name → 0 ∉ nm →
      validUtf8 nm = true → sha.length = 20 → e.hash = hexEncode sha →
      e.is_dir = (e.mode == 0o40000) →
      ConcatRecords rest es →
      ConcatRecords (m ++ 32 :: (nm ++ 0 :: (sha ++ rest))) (e :: es)

theorem parseRecord_sound (l : List Nat) (e : TreeEntry) (rest : List Nat)
    (h : parseRecord l = some (e, rest)) :
    ∃ m nm sha, l = m ++ 32 :: (nm ++ 0 :: (sha ++ rest)) ∧ 32 ∉ m ∧
      parseOctalU32 m = some e.mode ∧ nm = e.name ∧ 0 ∉ nm ∧
      validUtf8 nm = true ∧ sha.length = 20 ∧ e.hash = hexEncode sha ∧
      e.is_dir = (e.mode == 0o40000) := by
  rw [parseRecord] at h
  rcases hd1 : l.dropWhile (fun b => b ≠ 32) with _ | ⟨c1, r2⟩ <;> rw [hd1] at h
  · exact absurd h (by simp)
  · rcases hoct : parseOctalU32 (l.takeWhile (fun b => b ≠ 32)) with _ | mode <;>
      rw [hoct] at h
    · exact absurd h (by simp)
    · dsimp only at h
      rcases hd2 : r2.dropWhile (fun b => b ≠ 0) with _ | ⟨c2, r4⟩ <;> rw [hd2] at h
      · exact absurd h (by simp)
      · dsimp only at h
        by_cases hutf : validUtf8 (r2.takeWhile (fun b => b ≠ 0)) = true
        · rw [if_pos hutf] at h
          by_cases hl20 : r4.length < 20
          · rw [if_pos hl20] at h; exact absurd h (by simp)
          · rw [if_neg hl20] at h
            simp only [Option.some.injEq, Prod.mk.injEq] at h
            obtain ⟨he, hrest⟩ := h
            have hc1 : c1 = 32 := by
              have := dropWhile_head_false (p := fun b => decide (b ≠ 32)) l c1 r2 hd1
              simpa using this
            have hc2 : c2 = 0 := by
              have := dropWhile_head_false (p := fun b => decide (b ≠ 0)) r2 c2 r4 hd2
              simpa using this
            refine ⟨l.takeWhile (fun b => b ≠ 32), r2.takeWhile (fun b => b ≠ 0),
              r4.take 20, ?_, ?_, ?_, ?_, ?_, hutf, ?_, ?_, ?_⟩
            · subst hc1 hc2
              rw [← hrest]
              conv =>
                lhs
                rw [← List.takeWhile_append_dropWhile (l := l) (p := fun b => b ≠ 32), hd1]
              congr 2
              conv =>
                lhs
                rw [← List.takeWhile_append_dropWhile (l := r2) (p := fun b => b ≠ 0), hd2]
              congr 2
              exact (List.take_append_drop 20 r4).symm
            · intro hmem
              have := List.mem_takeWhile_imp hmem
              simp at this
            · rw [hoct, ← he]
            · rw [← he]
            · intro hmem
              have := List.mem_takeWhile_imp hmem
              simp at this
            · simp; omega
            · rw [← he]
            · rw [← he]
        · rw [if_neg hutf] at h; exact absurd h (by simp)

theorem parseTreeLoop_sound :
    ∀ (fuel : Nat) (l : List Nat) (es : List TreeEntry),
      parseTreeLoop fuel l = some es → ConcatRecords l es := by
  intro fuel
  induction fuel with
  | zero => intro l es h; exact absurd h (by simp [parseTreeLoop])
  | succ f ih =>
    intro l es h
    cases l with
    | nil =>
      have : es = [] := by
        have : parseTreeLoop (f + 1) ([] : List Nat) = some [] := rfl
        rw [this] at h
        exact (Option.some.injEq _ _ ▸ h).symm
      subst this
      exact ConcatRecords.nil
    | cons b r =>
      rw [parseTreeLoop_cons f (b :: r) (by simp)] at h
      rcases hrec : parseRecord (b :: r) with _ | ⟨e, rest⟩ <;> rw [hrec] at h
      · exact absurd h (by simp)
      · dsimp only at h
        rcases hloop : parseTreeLoop f rest with _ | es' <;> rw [hloop] at h
        · exact absurd h (by simp)
        · simp only [Option.map_some', Option.some.injEq] at h
          subst h
          obtain ⟨m, nm, sha, hl, h32, hm, hnm, h0, hutf, hsha, hh, hd⟩ :=
            parseRecord_sound (b :: r) e rest hrec
          rw [hl]
          exact ConcatRecords.cons m nm sha rest es' e h32 hm hnm h0 hutf hsha hh hd
            (ih rest es' hloop)

/-- C6 (amended): for every list of tree entries whose hashes are
40-character lowercase hexadecimal (the case the program itself produces),
whose names are null-free valid UTF-8, whose modes are in u32 range, and
whose directory flag agrees with the directory mode, parsing the serialized
tree payload reproduces exactly the entry list, hence the same set of
name, mode, hash, is_dir tuples. -/
theorem tree_roundtrip_lowercase (entries : List TreeEntry)
    (h : ∀ e ∈ entries, GoodTreeEntry e) :
    (treeBuf entries).bind TreeProcessor.parse_tree = some entries := by
  obtain ⟨buf, hbuf⟩ := treeBuf_total entries (fun e he => (h e he).1)
  rw [hbuf]
  show TreeProcessor.parse_tree buf = some entries
  rw [TreeProcessor.parse_tree]
  exact parseTreeLoop_complete entries (buf.length + 1) buf h
    (by have := treeBuf_length entries buf hbuf; omega) hbuf

/-- Witness for the C6 amended round-trip at a concrete two-entry list (a
regular file and a directory entry). -/
theorem tree_roundtrip_lowercase_witness :
    (treeBuf [⟨[102], "c1b0730e0133447badcfd47fd144e254807b06e1", 0o100644, false⟩,
              ⟨[100], "4b825dc642cb6eb9a060e54bf8d69288fbee4904", 0o40000, true⟩]).bind
      TreeProcessor.parse_tree =
      some [⟨[102], "c1b0730e0133447badcfd47fd144e254807b06e1", 0o100644, false⟩,
            ⟨[100], "4b825dc642cb6eb9a060e54bf8d69288fbee4904", 0o40000, true⟩] :=
  tree_roundtrip_lowercase _ (by decide)

/-- C6 counterexample: the claim as stated, for an arbitrary valid 40-hex
hash, fails on an uppercase hash: serializing decodes the hex and parsing
re-encodes it lowercase, so the reproduced entry set does not contain the
original entry. -/
theorem tree_roundtrip_uppercase_cex :
    (treeBuf [⟨[102], "AAAAAAAAAAAAAAAAAAAAAAAAAAAAAAAAAAAAAAAA", 0o100644, false⟩]).bind
      TreeProcessor.parse_tree =
      some [⟨[102], "aaaaaaaaaaaaaaaaaaaaaaaaaaaaaaaaaaaaaaaa", 0o100644, false⟩] ∧
    (⟨[102], "AAAAAAAAAAAAAAAAAAAAAAAAAAAAAAAAAAAAAAAA", 0o100644, false⟩ : TreeEntry) ∉
      [(⟨[102], "aaaaaaaaaaaaaaaaaaaaaaaaaaaaaaaaaaaaaaaa", 0o100644, false⟩ : TreeEntry)] := by
  constructor
  · decide
  · decide

/-- C7 (amended): on every input buffer, parse_tree either succeeds, in
which case the input was exactly a concatenation of complete records
consumed until the buffer was exhausted, or panics (modelled as none):
there is no malformed-object error return. -/
theorem parse_tree_sound_or_panics (data : List Nat) :
    TreeProcessor.parse_tree data = none ∨
    ∃ es, TreeProcessor.parse_tree data = some es ∧ ConcatRecords data es := by
  rcases h : TreeProcessor.parse_tree data with _ | es
  · exact Or.inl rfl
  · exact Or.inr ⟨es, rfl, parseTreeLoop_sound _ data es h⟩

/-- C7 counterexample: on the one-byte buffer 0x31 (a digit, so the buffer
ends while the parser is still scanning for the space after the mode) the
source indexes past the end of the slice and panics, modelled as none; it
does not return a malformed-object error value. A longer buffer cut inside
the 20 hash bytes panics the same way. -/
theorem parse_tree_truncated_panics :
    TreeProcessor.parse_tree [49] = none ∧
    TreeProcessor.parse_tree (strBytes "100644 f" ++ [0, 1, 2, 3]) = none := by
  constructor
  · decide
  · decide

/-- Well-formedness of an index entry for the save/load round trip: a
40-character lowercase hexadecimal hash (the shape every hash this program
produces has), a valid-UTF-8 path (a Rust String invariant) of at most 255
bytes, and numeric fields within their Rust integer ranges. -/
def GoodIndexEntry (e : IndexEntry) : Prop :=
  isLowerHex40 e.sha = true ∧ validUtf8 e.path = true ∧ e.path.length ≤ 255 ∧
  e.mode < 4294967296 ∧ e.mtime < 18446744073709551616 ∧
  e.ctime < 18446744073709551616 ∧ e.size < 18446744073709551616

instance (e : IndexEntry) : Decidable (GoodIndexEntry e) := by
  unfold GoodIndexEntry
  infer_instance

theorem indexLoadLoop_record (e : IndexEntry) (bs br : List Nat) (fuel : Nat)
    (hbs : bs.length = 20) (henc : hexEncode bs = e.sha)
    (hmode : e.mode < 4294967296) (hmt : e.mtime < 18446744073709551616)
    (hct : e.ctime < 18446744073709551616) (hsz : e.size < 18446744073709551616)
    (hpl : e.path.length ≤ 255) (hutf : validUtf8 e.path = true) :
    indexLoadLoop (fuel + 1)
      (bs ++ toBE 4 e.mode ++ toBE 8 e.mtime ++ toBE 8 e.ctime ++ toBE 8 e.size
        ++ ((e.path.length % 256) :: e.path) ++ br)
      = (indexLoadLoop fuel (br)).map (e :: ·) := by
  have hplmod : e.path.length % 256 = e.path.length := Nat.mod_eq_of_lt (by omega)
  set content := bs ++ toBE 4 e.mode ++ toBE 8 e.mtime ++ toBE 8 e.ctime ++ toBE 8 e.size
    ++ ((e.path.length % 256) :: e.path) ++ br with hcontent
  have hlen : content.length = 49 + e.path.length + br.length := by
    simp [hcontent, toBE_length, hbs]
    omega
  have h20 : content.take 20 = bs := by
    rw [hcontent]
    simp only [List.append_assoc]
    exact List.take_left' hbs
  have hd20 : (content.drop 20).take 4 = toBE 4 e.mode := by
    rw [hcontent]
    simp only [List.append_assoc]
    rw [List.drop_left' hbs]
    exact List.take_left' (toBE_length 4 e.mode)
  have hd24 : (content.drop 24).take 8 = toBE 8 e.mtime := by
    rw [hcontent]
    simp only [List.append_assoc]
    rw [← List.append_assoc bs (toBE 4 e.mode)]
    rw [List.drop_left' (by simp [hbs, toBE_length])]
    exact List.take_left' (toBE_length 8 e.mtime)
  have hd32 : (content.drop 32).take 8 = toBE 8 e.ctime := by
    rw [hcontent]
    simp only [List.append_assoc]
    rw [← List.append_assoc (toBE 4 e.mode) (toBE 8 e.mtime),
        ← List.append_assoc bs (toBE 4 e.mode ++ toBE 8 e.mtime)]
    rw [List.drop_left' (by simp [hbs, toBE_length])]
    exact List.take_left' (toBE_length 8 e.ctime)
  have hd40 : (content.drop 40).take 8 = toBE 8 e.size := by
    rw [hcontent]
    simp only [List.append_assoc]
    rw [← List.append_assoc (toBE 8 e.mtime) (toBE 8 e.ctime),
        ← List.append_assoc (toBE 4 e.mode) (toBE 8 e.mtime ++ toBE 8 e.ctime),
        ← List.append_assoc bs (toBE 4 e.mode ++ (toBE 8 e.mtime ++ toBE 8 e.ctime))]
    rw [List.drop_left' (by simp [hbs, toBE_length])]
    exact List.take_left' (toBE_length 8 e.size)
  have hd48 : content.drop 48 = (e.path.length % 256) :: (e.path ++ br) := by
    rw [hcontent]
    simp only [List.append_assoc, List.cons_append]
    rw [← List.append_assoc (toBE 8 e.ctime) (toBE 8 e.size),
        ← List.append_assoc (toBE 8 e.mtime) (toBE 8 e.ctime ++ toBE 8 e.size),
        ← List.append_assoc (toBE 4 e.mode)
          (toBE 8 e.mtime ++ (toBE 8 e.ctime ++ toBE 8 e.size)),
        ← List.append_assoc bs
          (toBE 4 e.mode ++ (toBE 8 e.mtime ++ (toBE 8 e.ctime ++ toBE 8 e.size)))]
    exact List.drop_left' (by simp [hbs, toBE_length])
  rw [indexLoadLoop]
  rw [if_neg (by omega)]
  rw [hd48]
  dsimp only
  rw [if_neg (by simp [hplmod])]
  rw [hplmod, List.take_left' rfl, List.drop_left' rfl]
  rw [if_pos hutf]
  rw [h20, henc, hd20, hd24, hd32, hd40]
  rw [fromBE_toBE 4 e.mode (by norm_num; omega), fromBE_toBE 8 e.mtime (by norm_num; omega),
      fromBE_toBE 8 e.ctime (by norm_num; omega), fromBE_toBE 8 e.size (by norm_num; omega)]

theorem indexSave_some (entries : List IndexEntry)
    (h : ∀ e ∈ entries, isLowerHex40 e.sha = true) :
    ∃ buf, Index.save entries = some buf ∧ entries.length ≤ buf.length := by
  induction entries with
  | nil => exact ⟨[], rfl, by simp⟩
  | cons e rest ih =>
    obtain ⟨bs, hdec, hlen20, _⟩ := hexDecode_lower40 e.sha (h e (by simp))
    obtain ⟨br, hbr, hbrlen⟩ := ih (fun x hx => h x (by simp [hx]))
    refine ⟨bs ++ toBE 4 e.mode ++ toBE 8 e.mtime ++ toBE 8 e.ctime ++ toBE 8 e.size
      ++ ((e.path.length % 256) :: e.path) ++ br, ?_, ?_⟩
    · rw [Index.save, hbr]
      rw [indexEntryBytes, hdec]
      simp [List.append_assoc]
    · simp [toBE_length, hlen20]
      omega

theorem indexLoadLoop_complete :
    ∀ (entries : List IndexEntry) (fuel : Nat) (buf : List Nat),
      (∀ e ∈ entries, GoodIndexEntry e) → entries.length < fuel →
      Index.save entries = some buf → indexLoadLoop fuel buf = some entries := by
  intro entries
  induction entries with
  | nil =>
    intro fuel buf _ hf hbuf
    simp [Index.save] at hbuf
    cases fuel with
    | zero => omega
    | succ f => subst hbuf; rfl
  | cons e rest ih =>
    intro fuel buf hgood hf hbuf
    obtain ⟨hhex, hutf, hpl, hmode, hmt, hct, hsz⟩ := hgood e (by simp)
    obtain ⟨bs, hdec, hlen20, henc⟩ := hexDecode_lower40 e.sha hhex
    rw [Index.save] at hbuf
    rcases hrest : Index.save rest with _ | br <;> rw [hrest] at hbuf
    · rw [indexEntryBytes, hdec] at hbuf
      simp at hbuf
    · rw [indexEntryBytes, hdec] at hbuf
      simp only [Option.map_some', Option.some_bind, Option.pure_def,
        Option.bind_eq_bind, Option.some.injEq] at hbuf
      cases fuel with
      | zero => omega
      | succ f =>
        rw [← hbuf]
        rw [show bs ++ toBE 4 e.mode ++ toBE 8 e.mtime ++ toBE 8 e.ctime ++ toBE 8 e.size
              ++ ((e.path.length % 256) :: e.path) ++ br
            = bs ++ toBE 4 e.mode ++ toBE 8 e.mtime ++ toBE 8 e.ctime ++ toBE 8 e.size
              ++ ((e.path.length % 256) :: e.path) ++ br from rfl] at hbuf
        rw [indexLoadLoop_record e bs br f hlen20 henc hmode hmt hct hsz hpl hutf]
        rw [ih f br (fun x hx => hgood x (by simp [hx])) (by simp at hf; omega) hrest]
        rfl

/-- C8 (amended): for every index entry list whose hashes are 40-character
lowercase hexadecimal (the case the program itself produces), whose paths
are valid UTF-8 of at most 255 bytes, and whose numeric fields are within
their Rust integer ranges, Index::load applied to the bytes produced by
Index::save reconstructs exactly the same entries (same paths, hashes,
modes, mtimes, ctimes and sizes, in record order, hence the same map),
following the record layout of raw 20-byte hash, mode, mtime, ctime, size,
1-byte path length, path bytes. -/
theorem index_save_load_roundtrip (entries : List IndexEntry)
    (h : ∀ e ∈ entries, GoodIndexEntry e) :
    (Index.save entries).bind Index.load = some entries := by
  obtain ⟨buf, hbuf, hlen⟩ := indexSave_some entries (fun e he => (h e he).1)
  rw [hbuf]
  show Index.load buf = some entries
  rw [Index.load]
  exact indexLoadLoop_complete entries (buf.length + 1) buf h (by omega) hbuf

/-- Witness for the C8 amended round-trip at a concrete entry. -/
theorem index_save_load_roundtrip_witness :
    (Index.save [⟨strBytes "a/b.txt", "b6fc4c620b67d95f953a5c1c1230aaab5db5a1b0",
        0o100644, 7, 7, 5⟩]).bind Index.load =
      some [⟨strBytes "a/b.txt", "b6fc4c620b67d95f953a5c1c1230aaab5db5a1b0",
        0o100644, 7, 7, 5⟩] :=
  index_save_load_roundtrip _ (by decide)

/-- C8 counterexample: the claim as stated, for an arbitrary valid 40-hex
hash, fails on an uppercase hash: save decodes the hex into raw bytes and
load re-encodes them lowercase, so the reconstructed map differs from the
original. -/
theorem index_roundtrip_uppercase_cex :
    (Index.save [⟨[102], "AAAAAAAAAAAAAAAAAAAAAAAAAAAAAAAAAAAAAAAA", 0o100644, 0, 0, 0⟩]).bind
      Index.load =
      some [⟨[102], "aaaaaaaaaaaaaaaaaaaaaaaaaaaaaaaaaaaaaaaa", 0o100644, 0, 0, 0⟩] ∧
    (⟨[102], "AAAAAAAAAAAAAAAAAAAAAAAAAAAAAAAAAAAAAAAA", 0o100644, 0, 0, 0⟩ : IndexEntry) ∉
      [(⟨[102], "aaaaaaaaaaaaaaaaaaaaaaaaaaaaaaaaaaaaaaaa", 0o100644, 0, 0, 0⟩ : IndexEntry)] := by
  constructor
  · decide
  · decide

theorem cleanLoop_true_iff (entries : List IndexEntry)
    (wd : List (List Nat × List Nat)) (st : Store) :
    (cleanLoop entries wd st).1 = true ↔
      ∀ e ∈ entries, ∀ c, wdFind wd e.path = some c →
        objectHash ObjKind.blob c = e.sha := by
  induction entries generalizing st with
  | nil => simp [cleanLoop]
  | cons e rest ih =>
    rw [cleanLoop]
    simp only [List.forall_mem_cons]
    rcases hw : wdFind wd e.path with _ | c
    · rw [ih st]
      constructor
      · intro hr2
        exact ⟨(fun c hc => nomatch hc), hr2⟩
      · exact fun h => h.2
    · dsimp only
      by_cases hsha : (Object.save ObjKind.blob c st).1 = e.sha
      · rw [if_pos hsha, ih]
        constructor
        · intro hr2
          refine ⟨fun c2 hc2 => ?_, hr2⟩
          cases hc2
          exact hsha
        · exact fun h => h.2
      · rw [if_neg hsha]
        simp only [Bool.false_eq_true, false_iff, not_and]
        intro hhead
        exact absurd (hhead c rfl) hsha

/-- C10: the clean check skips every index entry whose working-directory
file cannot be read (for example a deleted tracked file), treating the
working tree as clean for that entry; it reports a dirty tree exactly when
some entry with a readable file hashes differently from the recorded hash,
so only such an entry makes checkout abort. -/
theorem workdir_clean_iff_no_readable_mismatch (st : RepoState) :
    (is_workdir_clean st).1 = true ↔
      ∀ e ∈ st.indexEntries, ∀ c, wdFind st.workdir e.path = some c →
        objectHash ObjKind.blob c = e.sha :=
  cleanLoop_true_iff st.indexEntries st.workdir st.objects

/-- Witness for C10 at a concrete state whose only tracked file is absent
from the working directory: the check passes. -/
theorem workdir_clean_iff_witness :
    (is_workdir_clean
      { head := "", refs := [], objects := [],
        indexEntries := [⟨[102], "0000000000000000000000000000000000000000", 0o100644, 0, 0, 0⟩],
        workdir := [] }).1 = true :=
  (workdir_clean_iff_no_readable_mismatch _).mpr (by
    intro e he c hc
    simp [wdFind] at hc)

/-- C3 (amended): whenever some index entry has a readable working file
whose blob hash differs from the recorded hash, checkout fails with the
dirty-working-tree abort before touching the working directory, index,
HEAD or refs, which are returned exactly as they were; the object store,
however, is the one component the clean check itself writes to (it saves a
blob for every readable tracked file while hashing it). -/
theorem checkout_dirty_aborts (st : RepoState) (target : String) (create_new : Bool)
    (e : IndexEntry) (c : List Nat) (he : e ∈ st.indexEntries)
    (hr : wdFind st.workdir e.path = some c)
    (hm : objectHash ObjKind.blob c ≠ e.sha) :
    ∃ objs, git_checkout_upToHead st target create_new =
      .error (CheckoutErr.dirtyWorkingTree,
        { head := st.head, refs := st.refs, objects := objs,
          indexEntries := st.indexEntries, workdir := st.workdir }) := by
  refine ⟨(is_workdir_clean st).2, ?_⟩
  have hfalse : (is_workdir_clean st).1 = false := by
    rcases hb : (is_workdir_clean st).1
    · rfl
    · exact absurd ((cleanLoop_true_iff _ _ _).mp hb e he c hr) hm
  simp only [git_checkout_upToHead, hfalse, if_pos]

set_option maxRecDepth 1000000 in
/-- Witness for the C3 amended abort at a concrete dirty state. -/
theorem checkout_dirty_aborts_witness :
    ∃ objs, git_checkout_upToHead
      { head := "ref: refs/heads/master", refs := [], objects := [],
        indexEntries := [⟨[102], "0000000000000000000000000000000000000000", 0o100644, 0, 0, 1⟩],
        workdir := [([102], [120])] } "b" false =
      .error (CheckoutErr.dirtyWorkingTree,
        { head := "ref: refs/heads/master", refs := [], objects := objs,
          indexEntries := [⟨[102], "0000000000000000000000000000000000000000", 0o100644, 0, 0, 1⟩],
          workdir := [([102], [120])] }) :=
  checkout_dirty_aborts _ "b" false
    ⟨[102], "0000000000000000000000000000000000000000", 0o100644, 0, 0, 1⟩ [120]
    (by decide) (by decide) (by decide)

set_option maxRecDepth 1000000 in
/-- C3 counterexample: at a concrete dirty state (one tracked file, recorded
hash all zeroes, live content the byte 0x78) the aborting checkout has
already written the blob object of the modified file into the object store:
the store in the error state differs from the original empty store, so the
operation does not leave the object store exactly as it was. -/
theorem checkout_dirty_mutates_store_cex :
    git_checkout_upToHead
      { head := "ref: refs/heads/master", refs := [], objects := [],
        indexEntries := [⟨[102], "0000000000000000000000000000000000000000", 0o100644, 0, 0, 1⟩],
        workdir := [([102], [120])] } "b" false =
      .error (CheckoutErr.dirtyWorkingTree,
        { head := "ref: refs/heads/master", refs := [],
          objects := [("c1b0730e0133447badcfd47fd144e254807b06e1", objRaw ObjKind.blob [120])],
          indexEntries := [⟨[102], "0000000000000000000000000000000000000000", 0o100644, 0, 0, 1⟩],
          workdir := [([102], [120])] }) ∧
    [("c1b0730e0133447badcfd47fd144e254807b06e1", objRaw ObjKind.blob [120])] ≠ ([] : Store) := by
  constructor
  · decide
  · decide

/-- C2: checkout of a target that is not a known branch. The claim says HEAD
then becomes the literal commit hash (detached); in the code the condition
guarding the symbolic form tests whether the string refs/heads/ ++ target
starts with refs/heads/, which always holds, so HEAD is written as the
symbolic reference ref: refs/heads/(hash) even for a raw 40-hex target that
is no branch, and the detached branch of the conditional is dead code. At
the failing input below (empty repository state, 40-a target, no branch of
that name) the resulting HEAD differs from the literal hash the claim
requires. -/
theorem checkout_literal_hash_writes_symbolic_head :
    git_checkout_upToHead
      { head := "ref: refs/heads/master", refs := [], objects := [],
        indexEntries := [], workdir := [] }
      "aaaaaaaaaaaaaaaaaaaaaaaaaaaaaaaaaaaaaaaa" false =
      .ok { head := "ref: refs/heads/aaaaaaaaaaaaaaaaaaaaaaaaaaaaaaaaaaaaaaaa", refs := [],
            objects := [], indexEntries := [], workdir := [] } ∧
    ("ref: refs/heads/aaaaaaaaaaaaaaaaaaaaaaaaaaaaaaaaaaaaaaaa" : String) ≠
      "aaaaaaaaaaaaaaaaaaaaaaaaaaaaaaaaaaaaaaaa" := by
  constructor
  · rfl
  · decide

/-- C4: tree construction from a staged index. The claim says every
directory reachable through the staged paths, including intermediate
directories that contain only subdirectories and no direct files, appears
as a directory entry in its parent tree. In the code a directory is only
visited when its parent is the current directory and it is itself a key of
the grouping map, and only parents of staged files are keys; so for the
single staged path a/b/c.txt the root sees no subdirectory (the only key
a/b has parent a, not the root) and the whole subtree is dropped: the
builder returns exactly the empty tree object, with no entry for the
directory a. -/
theorem tree_builder_drops_intermediate_dirs :
    TreeProcessor.create_tree_from_index [] []
      [⟨strBytes "a/b/c.txt", "c1b0730e0133447badcfd47fd144e254807b06e1", 0o100644, 0, 0, 1⟩]
      = some (Object.save ObjKind.tree [] []) := by
  rfl

/-- C5 counterexample: the payload composed by CommitBuilder::create_commit
is not the claimed tree, optional parent, author, blank line, message
shape and nothing else: it also contains a committer line between the
author line and the blank line. -/
theorem create_commit_committer_line_cex :
    CommitBuilder.create_commit_content "t" none "A" "ts" "m"
      = "tree t\nauthor A ts\ncommitter A ts\n\nm" ∧
    CommitBuilder.create_commit_content "t" none "A" "ts" "m"
      ≠ "tree t\nauthor A ts\n\nm" := by
  constructor
  · rfl
  · decide

/-- C5 (amended): for every tree hash, optional parent hash, author string,
timestamp and message, CommitBuilder::create_commit composes exactly the
payload tree line, optional parent line, author line, committer line, blank
line, message; the inline composition actually run by the commit command
(git_commit) composes exactly the originally claimed payload without a
committer line, with its fixed author string. -/
theorem commit_payload_format (th : String) (parent : Option String)
    (author ts msg : String) :
    CommitBuilder.create_commit_content th parent author ts msg =
      "tree " ++ th ++ "\n"
        ++ (match parent with | some p => "parent " ++ p ++ "\n" | none => "")
        ++ "author " ++ author ++ " " ++ ts ++ "\n"
        ++ "committer " ++ author ++ " " ++ ts ++ "\n"
        ++ "\n" ++ msg ∧
    gitCommitContent th parent ts msg =
      "tree " ++ th ++ "\n"
        ++ (match parent with | some p => "parent " ++ p ++ "\n" | none => "")
        ++ "author You <you@example.com> " ++ ts ++ "\n\n" ++ msg := by
  cases parent <;>
    exact ⟨by apply String.ext; simp [CommitBuilder.create_commit_content, String.data_append],
           by apply String.ext; simp [gitCommitContent, String.data_append]⟩

/-- C9: staged mode derivation. The claim says the recorded mode reflects
the live file executable bit (0o100755 exactly for executable files,
0o100644 otherwise); the code tests the readonly permission bit instead,
so a writable file that is not executable is recorded with mode 0o100755,
where the claim requires 0o100644. The evaluation below stages such a file
(readonly false, executable false) into an empty index of a repository
rooted at the empty path and shows the recorded entry. -/
theorem stage_file_mode_ignores_executable_bit :
    Index.stage_file [] [] (strBytes "f")
      { readonly := false, executable := false, mtime := 3, size := 5 } "s"
      = [⟨strBytes "f", "s", 0o100755, 3, 3, 5⟩] ∧
    (0o100755 : Nat) ≠ 0o100644 := by
  constructor
  · rfl
  · decide
